import Mathlib

/-!
Verification of the Game of Life distributor in
`src/gol-rs-skeleton-master/src/gol/distributor.rs`.

The Rust code is embedded shallowly: the grid is a `List CellValue` indexed
row-major by `y * width + x`; the per-generation worker threads are modelled
by applying each worker's row-range writes to the staging grid in thread-id
order (the writes of distinct workers touch disjoint indices, and the code
joins every worker before reading the staging grid, so any order produces the
same staging grid — `computeStagingOrder` keeps the order abstract and the
determinism theorem proves order independence).  The `events` channel is
modelled as the list of events sent, in order; the `io_input` channel as the
list of cells it will deliver before closing.  The event and idle channels
are assumed live (their failure modes are outside the claims considered
here), so the only error path modelled is the input channel closing before
`width * height` cells have been delivered, in which case the result carries
the events emitted before the failure (none: the first `events.send` in the
code happens after the input loop).
-/

namespace GoL

/-- Cell state, `CellValue` from `util::cell`: `Alive` or `Dead`. -/
inductive CellValue where
  | dead
  | alive
deriving DecidableEq, Repr

/-- Cell coordinate, `CellCoord` from `util::cell`. -/
structure CellCoord where
  x : Nat
  y : Nat
deriving DecidableEq, Repr

/-- Lifecycle states carried by `Event::StateChange`. -/
inductive RunState where
  | executing
  | quitting
deriving DecidableEq, Repr

/-- Events sent on the `events` channel (`gol::event::Event`). -/
inductive Event where
  | stateChange (completed_turns : Nat) (new_state : RunState)
  | cellsFlipped (completed_turns : Nat) (cells : List CellCoord)
  | turnComplete (completed_turns : Nat)
  | finalTurnComplete (completed_turns : Nat) (alive : List CellCoord)
deriving DecidableEq, Repr

/-- Run configuration, `gol::Params`. -/
structure Params where
  image_width : Nat
  image_height : Nat
  turns : Nat
  threads : Nat
deriving Repr

/-- The `(dy, dx)` pairs enumerated by the nested `for dy` / `for dx` loops of
`count_alive_neighbors` (distributor.rs lines 177-178), with `(0, 0)` skipped
by the `continue` at line 179. -/
def neighborOffsets : List (Int × Int) :=
  [(-1, -1), (-1, 0), (-1, 1), (0, -1), (0, 1), (1, -1), (1, 0), (1, 1)]

/-- `count_alive_neighbors` (distributor.rs lines 169-193): for each offset,
if the neighbor position is inside `[0,width) × [0,height)` and holds an
`Alive` cell, increment the count; out-of-range positions contribute nothing. -/
def count_alive_neighbors (world : List CellValue) (width height x y : Nat) : Nat :=
  neighborOffsets.foldl
    (fun count p =>
      let ny : Int := (y : Int) + p.1
      let nx : Int := (x : Int) + p.2
      if 0 ≤ nx ∧ nx < (width : Int) ∧ 0 ≤ ny ∧ ny < (height : Int) then
        if world.getD (ny.toNat * width + nx.toNat) CellValue.dead = CellValue.alive then
          count + 1
        else count
      else count)
    0

/-- The per-cell body of the worker closure (distributor.rs lines 79-98):
read the cell at `y * width + x`, count its alive neighbors, and apply the
Life rule to obtain the staged value. -/
def computeNewCell (world : List CellValue) (width height x y : Nat) : CellValue :=
  let cell := world.getD (y * width + x) CellValue.dead
  let alive_neighbors := count_alive_neighbors world width height x y
  match cell with
  | CellValue.alive =>
      if alive_neighbors = 2 ∨ alive_neighbors = 3 then CellValue.alive else CellValue.dead
  | CellValue.dead =>
      if alive_neighbors = 3 then CellValue.alive else CellValue.dead

/-- `start_row` for worker `i` (distributor.rs line 67):
`i * rows_per_thread + min(i, extra_rows)` with `rows_per_thread =
height / threads` and `extra_rows = height % threads` (lines 48-49). -/
def startRow (height threads i : Nat) : Nat :=
  i * (height / threads) + min i (height % threads)

/-- `end_row` for worker `i` (distributor.rs lines 68-74): `start_row +
rows_per_thread`, plus one when `i < extra_rows`, clamped to `height`. -/
def endRow (height threads i : Nat) : Nat :=
  let e := startRow height threads i + height / threads +
    (if i < height % threads then 1 else 0)
  if e > height then height else e

/-- The row indices iterated by worker `i`'s `for y in start_row..end_row`
loop (distributor.rs line 77). -/
def workerRows (height threads i : Nat) : List Nat :=
  List.range' (startRow height threads i)
    (endRow height threads i - startRow height threads i)

/-- The worker's inner `for x in 0..width` loop (distributor.rs lines 78-99)
for one row `y`: write the staged value of every cell `(x, y)` into the
staging grid at index `y * width + x`. -/
def writeRowCells (world : List CellValue) (width height y : Nat) :
    List Nat → List CellValue → List CellValue
  | [], next => next
  | x :: xs, next =>
      writeRowCells world width height y xs
        (next.set (y * width + x) (computeNewCell world width height x y))

/-- The worker's outer `for y in start_row..end_row` loop (distributor.rs
lines 77-101), applied to an explicit list of row indices. -/
def writeCells (world : List CellValue) (width height : Nat) :
    List Nat → List CellValue → List CellValue
  | [], next => next
  | y :: ys, next =>
      writeCells world width height ys
        (writeRowCells world width height y (List.range width) next)

/-- The staging grid (`next_world`, distributor.rs lines 59-108) produced by
running the workers whose ids appear in `order`, in that order, starting from
the all-`Dead` staging buffer of line 59.  The real workers run in parallel,
but each writes only indices in its own row range and all are joined before
the staging grid is read, so the order is semantically irrelevant (proved
below); the id list is kept abstract here to state that theorem. -/
def computeStagingOrder (world : List CellValue) (width height threads : Nat)
    (order : List Nat) : List CellValue :=
  order.foldl
    (fun next i => writeCells world width height (workerRows height threads i) next)
    (List.replicate (width * height) CellValue.dead)

/-- The staging grid of one generation, with workers `0, ..., threads - 1`
(distributor.rs line 61: `for thread_id in 0..threads`). -/
def computeStaging (world : List CellValue) (width height threads : Nat) : List CellValue :=
  computeStagingOrder world width height threads (List.range threads)

/-- The `(x, y)` pairs visited by the diff loop's nested `for y` / `for x`
(distributor.rs lines 114-115), in row-major order. -/
def rowMajorCoords (width height : Nat) : List (Nat × Nat) :=
  (List.range height).flatMap (fun y => (List.range width).map (fun x => (x, y)))

/-- The body of the diff loop (distributor.rs lines 116-121): at each visited
coordinate, if the current grid and the staging grid differ at its index,
push the coordinate onto `flipped_cells` and overwrite the current grid with
the staged value. -/
def diffLoop (width : Nat) (staging : List CellValue) :
    List (Nat × Nat) → List CellCoord → List CellValue → List CellCoord × List CellValue
  | [], flipped, cur => (flipped, cur)
  | (x, y) :: rest, flipped, cur =>
      let index := y * width + x
      if cur.getD index CellValue.dead ≠ staging.getD index CellValue.dead then
        diffLoop width staging rest (flipped ++ [⟨x, y⟩])
          (cur.set index (staging.getD index CellValue.dead))
      else
        diffLoop width staging rest flipped cur

/-- The Diffing step of one generation (distributor.rs lines 110-123):
returns the `flipped_cells` list and the updated current grid. -/
def diffStep (width height : Nat) (current staging : List CellValue) :
    List CellCoord × List CellValue :=
  diffLoop width staging (rowMajorCoords width height) [] current

/-- The events sent at the end of one generation (distributor.rs lines
125-132): `CellsFlipped` only when `flipped_cells` is non-empty, then
`TurnComplete`, both carrying the completed turn number. -/
def turnEvents (turn : Nat) (flipped : List CellCoord) : List Event :=
  (if flipped.isEmpty then [] else [Event.cellsFlipped turn flipped]) ++
    [Event.turnComplete turn]

/-- The authoritative grid after one generation step from `world`. -/
def stepWorld (width height threads : Nat) (world : List CellValue) : List CellValue :=
  (diffStep width height world (computeStaging world width height threads)).2

/-- The `flipped_cells` list of one generation step from `world`. -/
def stepFlipped (width height threads : Nat) (world : List CellValue) : List CellCoord :=
  (diffStep width height world (computeStaging world width height threads)).1

/-- The grid after `n` generation steps from `world`. -/
def worldIter (width height threads : Nat) (world : List CellValue) : Nat → List CellValue
  | 0 => world
  | n + 1 => worldIter width height threads (stepWorld width height threads world) n

/-- The generation loop `for turn in 1..=turns` (distributor.rs lines
57-133), with `turn` the number of the next generation and `n` the number of
generations left to run; returns the events sent by the loop and the final
authoritative grid. -/
def loopTurns (width height threads : Nat) :
    List CellValue → Nat → Nat → List Event × List CellValue
  | world, _, 0 => ([], world)
  | world, turn, n + 1 =>
      let flipped := stepFlipped width height threads world
      let world2 := stepWorld width height threads world
      let rest := loopTurns width height threads world2 (turn + 1) n
      (turnEvents turn flipped ++ rest.1, rest.2)

/-- Variant of `loopTurns` in which generation `turn`'s workers are applied
to the staging grid in the order `sched turn` instead of `0, ..., threads-1`;
used to show that worker scheduling cannot be observed. -/
def loopTurnsSched (width height threads : Nat) (sched : Nat → List Nat) :
    List CellValue → Nat → Nat → List Event × List CellValue
  | world, _, 0 => ([], world)
  | world, turn, n + 1 =>
      let staging := computeStagingOrder world width height threads (sched turn)
      let d := diffStep width height world staging
      let rest := loopTurnsSched width height threads sched d.2 (turn + 1) n
      (turnEvents turn d.1 ++ rest.1, rest.2)

/-- The indices `y * width + x` written by the input loop (distributor.rs
lines 32-41), in iteration order. -/
def rowMajorIndices (width height : Nat) : List Nat :=
  (List.range height).flatMap (fun y => (List.range width).map (fun x => y * width + x))

/-- The input loop's writes: take one cell from the input channel per index
and store it; `none` models `recv()` failing because the channel closed
before every index received a cell (distributor.rs lines 34-38). -/
def loadCells : List CellValue → List Nat → List CellValue → Option (List CellValue)
  | world, [], _ => some world
  | _, _ :: _, [] => none
  | world, i :: is, c :: cs => loadCells (world.set i c) is cs

/-- Loading the initial grid (distributor.rs lines 29-42): start from the
all-`Dead` buffer of line 29 and run the input loop over all indices. -/
def loadGrid (width height : Nat) (input : List CellValue) : Option (List CellValue) :=
  loadCells (List.replicate (width * height) CellValue.dead)
    (rowMajorIndices width height) input

/-- The final alive-cell collection (distributor.rs lines 135-151):
enumerate the grid and keep `(idx % width, idx / width)` for each `Alive`
cell. -/
def aliveCells (world : List CellValue) (width : Nat) : List CellCoord :=
  world.enum.filterMap
    (fun p => if p.2 = CellValue.alive then some ⟨p.1 % width, p.1 / width⟩ else none)

/-- The whole `distributor` function (distributor.rs lines 21-167) with the
input channel's pending cells given by `input`.  On success, returns the full
event trace and the final grid; on input failure, returns the events emitted
before the failure (none — the first `events.send` is after the input loop). -/
def distributorRun (p : Params) (input : List CellValue) :
    Except (List Event) (List Event × List CellValue) :=
  match loadGrid p.image_width p.image_height input with
  | none => Except.error []
  | some world =>
      let r := loopTurns p.image_width p.image_height p.threads world 1 p.turns
      Except.ok
        (Event.stateChange 0 RunState.executing ::
          (r.1 ++
            [Event.finalTurnComplete p.turns (aliveCells r.2 p.image_width),
             Event.stateChange p.turns RunState.quitting]),
         r.2)

/-- `distributorRun` with per-generation worker order `sched`. -/
def distributorRunSched (p : Params) (sched : Nat → List Nat) (input : List CellValue) :
    Except (List Event) (List Event × List CellValue) :=
  match loadGrid p.image_width p.image_height input with
  | none => Except.error []
  | some world =>
      let r := loopTurnsSched p.image_width p.image_height p.threads sched world 1 p.turns
      Except.ok
        (Event.stateChange 0 RunState.executing ::
          (r.1 ++
            [Event.finalTurnComplete p.turns (aliveCells r.2 p.image_width),
             Event.stateChange p.turns RunState.quitting]),
         r.2)

/-- Recognizer for `TurnComplete` events. -/
def isTurnComplete : Event → Bool
  | Event.turnComplete _ => true
  | _ => false

/-- Row-major index of a coordinate. -/
def coordIndex (width : Nat) (c : CellCoord) : Nat :=
  c.y * width + c.x

/-- The `flipped_cells` list of generation `g` (1-indexed) of a run that
starts from the grid `world`. -/
def genFlipped (width height threads : Nat) (world : List CellValue) (g : Nat) :
    List CellCoord :=
  stepFlipped width height threads (worldIter width height threads world (g - 1))

/-- Every `CellsFlipped` event in the trace is immediately followed by the
`TurnComplete` event of the same turn. -/
def cfFollowed (tr : List Event) : Prop :=
  ∀ i t cells, tr[i]? = some (Event.cellsFlipped t cells) →
    tr[i + 1]? = some (Event.turnComplete t)

/-! ### Basic list and index lemmas -/

theorem getD_set_self {α : Type} {l : List α} {i : Nat} {a d : α} (h : i < l.length) :
    (l.set i a).getD i d = a := by
  rw [List.getD_eq_getElem?_getD, List.getElem?_set_self h]
  rfl

theorem getD_set_ne {α : Type} {l : List α} {i j : Nat} {a d : α} (h : i ≠ j) :
    (l.set i a).getD j d = l.getD j d := by
  rw [List.getD_eq_getElem?_getD, List.getElem?_set_ne h, ← List.getD_eq_getElem?_getD]

theorem getD_replicate {α : Type} (n i : Nat) (a : α) :
    (List.replicate n a).getD i a = a := by
  rcases Nat.lt_or_ge i n with h | h
  · have h' : i < (List.replicate n a).length := by simpa using h
    rw [List.getD_eq_getElem _ _ h', List.getElem_replicate]
  · exact List.getD_eq_default _ _ (by simpa using h)

theorem index_lt {w h x y : Nat} (hx : x < w) (hy : y < h) : y * w + x < w * h := by
  have h2 : y * w + w ≤ h * w := by
    have h3 := Nat.mul_le_mul_right w (Nat.succ_le_of_lt hy)
    rw [Nat.succ_mul] at h3
    exact h3
  rw [Nat.mul_comm w h]
  omega

theorem index_inj {w x x' y y' : Nat} (hx : x < w) (hx' : x' < w)
    (h : y * w + x = y' * w + x') : y = y' ∧ x = x' := by
  have hw : 0 < w := Nat.lt_of_le_of_lt (Nat.zero_le x) hx
  have h1 : (y * w + x) / w = y := by
    rw [Nat.mul_comm y w, Nat.mul_add_div hw, Nat.div_eq_of_lt hx, Nat.add_zero]
  have h2 : (y' * w + x') / w = y' := by
    rw [Nat.mul_comm y' w, Nat.mul_add_div hw, Nat.div_eq_of_lt hx', Nat.add_zero]
  have hy : y = y' := by rw [← h1, ← h2, h]
  subst hy
  exact ⟨rfl, by omega⟩

/-! ### Partition lemmas: the row ranges of the workers -/

theorem startRow_zero (height threads : Nat) : startRow height threads 0 = 0 := by
  simp [startRow]

theorem startRow_succ (height threads i : Nat) :
    startRow height threads (i + 1) =
      startRow height threads i + height / threads +
        (if i < height % threads then 1 else 0) := by
  unfold startRow
  rcases Nat.lt_or_ge i (height % threads) with hc | hc
  · rw [Nat.min_eq_left (Nat.le_of_lt hc), Nat.min_eq_left (Nat.succ_le_of_lt hc),
      if_pos hc, Nat.succ_mul]
    omega
  · rw [Nat.min_eq_right hc, Nat.min_eq_right (Nat.le_trans hc (Nat.le_succ i)),
      if_neg (Nat.not_lt.mpr hc), Nat.succ_mul]
    omega

theorem startRow_mono {height threads i j : Nat} (hij : i ≤ j) :
    startRow height threads i ≤ startRow height threads j :=
  Nat.add_le_add (Nat.mul_le_mul_right _ hij) (min_le_min hij (Nat.le_refl _))

theorem startRow_threads {height threads : Nat} (ht : 0 < threads) :
    startRow height threads threads = height := by
  unfold startRow
  rw [Nat.min_eq_right (Nat.le_of_lt (Nat.mod_lt height ht)), Nat.div_add_mod]

theorem endRow_le (height threads i : Nat) : endRow height threads i ≤ height := by
  simp only [endRow]
  split_ifs <;> omega

theorem endRow_eq {height threads i : Nat} (hi : i < threads) :
    endRow height threads i = startRow height threads (i + 1) := by
  have ht : 0 < threads := Nat.lt_of_le_of_lt (Nat.zero_le i) hi
  have hle : startRow height threads (i + 1) ≤ height := by
    calc startRow height threads (i + 1) ≤ startRow height threads threads :=
          startRow_mono (Nat.succ_le_of_lt hi)
      _ = height := startRow_threads ht
  unfold endRow
  rw [← startRow_succ]
  exact if_neg (Nat.not_lt.mpr hle)

theorem mem_workerRows {height threads i y : Nat} :
    y ∈ workerRows height threads i ↔
      startRow height threads i ≤ y ∧ y < endRow height threads i := by
  rw [workerRows, List.mem_range'_1]
  omega

/-- Every row below `height` belongs to the range of some worker id below
`threads`, provided there is at least one worker. -/
theorem rowCovered {height threads y : Nat} (ht : 0 < threads) (hy : y < height) :
    ∃ i, i < threads ∧ startRow height threads i ≤ y ∧ y < endRow height threads i := by
  have aux : ∀ k, k ≤ threads → y < startRow height threads k →
      ∃ i, i < k ∧ startRow height threads i ≤ y ∧ y < endRow height threads i := by
    intro k
    induction k with
    | zero => intro _ hlt; rw [startRow_zero] at hlt; omega
    | succ k ih =>
        intro hk hlt
        by_cases hcase : y < startRow height threads k
        · obtain ⟨i, hi, hr⟩ := ih (Nat.le_of_succ_le hk) hcase
          exact ⟨i, Nat.lt_succ_of_lt hi, hr⟩
        · refine ⟨k, Nat.lt_succ_self k, Nat.le_of_not_lt hcase, ?_⟩
          rw [endRow_eq (Nat.lt_of_succ_le hk)]
          exact hlt
  apply aux threads (Nat.le_refl threads)
  rw [startRow_threads ht]
  exact hy

/-! ### The staging grid: every cell receives the Life-rule value -/

theorem writeRowCells_length (world : List CellValue) (w h y : Nat) :
    ∀ (xs : List Nat) (next : List CellValue),
      (writeRowCells world w h y xs next).length = next.length := by
  intro xs
  induction xs with
  | nil => intro next; rfl
  | cons x xs ih =>
      intro next
      simp only [writeRowCells]
      rw [ih, List.length_set]

theorem writeCells_length (world : List CellValue) (w h : Nat) :
    ∀ (ys : List Nat) (next : List CellValue),
      (writeCells world w h ys next).length = next.length := by
  intro ys
  induction ys with
  | nil => intro next; rfl
  | cons y ys ih =>
      intro next
      simp only [writeCells]
      rw [ih, writeRowCells_length]

theorem writeRowCells_getD (world : List CellValue) (w h : Nat) {y x' y' : Nat}
    (hx' : x' < w) (d : CellValue) :
    ∀ (xs : List Nat) (next : List CellValue), (∀ x ∈ xs, x < w) →
      y' * w + x' < next.length →
      (writeRowCells world w h y xs next).getD (y' * w + x') d =
        if y' = y ∧ x' ∈ xs then computeNewCell world w h x' y'
        else next.getD (y' * w + x') d := by
  intro xs
  induction xs with
  | nil =>
      intro next _ _
      simp [writeRowCells]
  | cons x xs ih =>
      intro next hmem hlen
      have hx : x < w := hmem x (List.mem_cons_self x xs)
      simp only [writeRowCells]
      rw [ih (next.set (y * w + x) (computeNewCell world w h x y))
        (fun z hz => hmem z (List.mem_cons_of_mem x hz))
        (by rw [List.length_set]; exact hlen)]
      by_cases h1 : y' = y ∧ x' ∈ xs
      · rw [if_pos h1, if_pos ⟨h1.1, List.mem_cons_of_mem x h1.2⟩]
      · rw [if_neg h1]
        by_cases h2 : y' = y ∧ x' = x
        · obtain ⟨hyy, hxx⟩ := h2
          subst hyy; subst hxx
          rw [getD_set_self hlen, if_pos ⟨rfl, List.mem_cons_self x' xs⟩]
        · have hne : y * w + x ≠ y' * w + x' := by
            intro hix
            exact h2 ⟨(index_inj hx hx' hix).1.symm, (index_inj hx hx' hix).2.symm⟩
          rw [getD_set_ne hne]
          have h3 : ¬(y' = y ∧ x' ∈ x :: xs) := by
            rintro ⟨hyy, hmem'⟩
            rcases List.mem_cons.mp hmem' with hxx | hxs
            · exact h2 ⟨hyy, hxx⟩
            · exact h1 ⟨hyy, hxs⟩
          rw [if_neg h3]

theorem writeCells_getD (world : List CellValue) {w h x' y' : Nat}
    (hx' : x' < w) (hy' : y' < h) (d : CellValue) :
    ∀ (ys : List Nat) (next : List CellValue), (∀ y ∈ ys, y < h) →
      next.length = w * h →
      (writeCells world w h ys next).getD (y' * w + x') d =
        if y' ∈ ys then computeNewCell world w h x' y'
        else next.getD (y' * w + x') d := by
  intro ys
  induction ys with
  | nil =>
      intro next _ _
      simp [writeCells]
  | cons y ys ih =>
      intro next hmem hlen
      simp only [writeCells]
      rw [ih (writeRowCells world w h y (List.range w) next)
        (fun z hz => hmem z (List.mem_cons_of_mem y hz))
        (by rw [writeRowCells_length]; exact hlen)]
      by_cases h1 : y' ∈ ys
      · rw [if_pos h1, if_pos (List.mem_cons_of_mem y h1)]
      · rw [if_neg h1]
        rw [writeRowCells_getD world w h hx' d (List.range w) next
          (fun z hz => List.mem_range.mp hz) (hlen ▸ index_lt hx' hy')]
        by_cases h2 : y' = y
        · rw [if_pos ⟨h2, List.mem_range.mpr hx'⟩, if_pos (h2 ▸ List.mem_cons_self y ys)]
        · rw [if_neg (fun hc => h2 hc.1),
            if_neg (fun hc => (List.mem_cons.mp hc).elim h2 h1)]

theorem stagingFold_getD (world : List CellValue) {w h t x y : Nat}
    (hx : x < w) (hy : y < h) (d : CellValue) :
    ∀ (order : List Nat) (next : List CellValue), next.length = w * h →
      (order.foldl (fun next i => writeCells world w h (workerRows h t i) next)
          next).getD (y * w + x) d =
        if ∃ i ∈ order, startRow h t i ≤ y ∧ y < endRow h t i
        then computeNewCell world w h x y
        else next.getD (y * w + x) d := by
  intro order
  induction order with
  | nil =>
      intro next _
      simp
  | cons i order ih =>
      intro next hlen
      simp only [List.foldl_cons]
      rw [ih (writeCells world w h (workerRows h t i) next)
        (by rw [writeCells_length]; exact hlen)]
      by_cases h1 : ∃ j ∈ order, startRow h t j ≤ y ∧ y < endRow h t j
      · rw [if_pos h1]
        obtain ⟨j, hj, hr⟩ := h1
        rw [if_pos ⟨j, List.mem_cons_of_mem i hj, hr⟩]
      · rw [if_neg h1]
        rw [writeCells_getD world hx hy d (workerRows h t i) next
          (fun z hz => Nat.lt_of_lt_of_le (mem_workerRows.mp hz).2 (endRow_le h t i))
          hlen]
        by_cases h2 : startRow h t i ≤ y ∧ y < endRow h t i
        · rw [if_pos (mem_workerRows.mpr h2), if_pos ⟨i, List.mem_cons_self i order, h2⟩]
        · rw [if_neg (fun hc => h2 (mem_workerRows.mp hc))]
          rw [if_neg ?hcond]
          case hcond =>
            rintro ⟨j, hj, hr⟩
            rcases List.mem_cons.mp hj with hji | hjo
            · exact h2 (hji ▸ hr)
            · exact h1 ⟨j, hjo, hr⟩

theorem computeStagingOrder_length (world : List CellValue) (w h t : Nat)
    (order : List Nat) : (computeStagingOrder world w h t order).length = w * h := by
  rw [computeStagingOrder]
  have aux : ∀ (os : List Nat) (next : List CellValue),
      (os.foldl (fun next i => writeCells world w h (workerRows h t i) next)
        next).length = next.length := by
    intro os
    induction os with
    | nil => intro next; rfl
    | cons i os ih =>
        intro next
        simp only [List.foldl_cons]
        rw [ih, writeCells_length]
  rw [aux, List.length_replicate]

theorem computeStagingOrder_getD (world : List CellValue) {w h t x y : Nat}
    (hx : x < w) (hy : y < h) (order : List Nat) :
    (computeStagingOrder world w h t order).getD (y * w + x) CellValue.dead =
      if ∃ i ∈ order, startRow h t i ≤ y ∧ y < endRow h t i
      then computeNewCell world w h x y
      else CellValue.dead := by
  rw [computeStagingOrder,
    stagingFold_getD world hx hy CellValue.dead order _ (List.length_replicate _ _)]
  rw [getD_replicate]

theorem computeStaging_length (world : List CellValue) (w h t : Nat) :
    (computeStaging world w h t).length = w * h :=
  computeStagingOrder_length world w h t (List.range t)

/-- With at least one worker, every in-bounds cell of the staging grid holds
the Life-rule value computed from the pre-step grid. -/
theorem computeStaging_getD (world : List CellValue) {w h t x y : Nat}
    (ht : 0 < t) (hx : x < w) (hy : y < h) :
    (computeStaging world w h t).getD (y * w + x) CellValue.dead =
      computeNewCell world w h x y := by
  rw [computeStaging, computeStagingOrder_getD world hx hy]
  rw [if_pos ?hcov]
  case hcov =>
    obtain ⟨i, hi, hr⟩ := rowCovered (y := y) ht hy
    exact ⟨i, List.mem_range.mpr hi, hr⟩

/-! ### The diff step -/

theorem flatMap_congr {α β : Type} {l : List α} {f g : α → List β}
    (hfg : ∀ a ∈ l, f a = g a) : l.flatMap f = l.flatMap g := by
  induction l with
  | nil => rfl
  | cons a l ih =>
      simp only [List.flatMap_cons]
      rw [hfg a (List.mem_cons_self a l), ih (fun b hb => hfg b (List.mem_cons_of_mem a hb))]

theorem mem_rowMajorCoords {w h a b : Nat} :
    (a, b) ∈ rowMajorCoords w h ↔ a < w ∧ b < h := by
  simp only [rowMajorCoords, List.mem_flatMap, List.mem_map, List.mem_range]
  constructor
  · rintro ⟨y, hy, x, hx, hexy⟩
    cases hexy
    exact ⟨hx, hy⟩
  · rintro ⟨ha, hb⟩
    exact ⟨b, hb, a, ha, rfl⟩

theorem flatRange (w : Nat) :
    ∀ h, (List.range h).flatMap (fun y => (List.range w).map (fun x => y * w + x)) =
      List.range (w * h) := by
  intro h
  induction h with
  | zero => simp
  | succ h ih =>
      rw [List.range_succ, List.flatMap_append, ih]
      have hmul : w * (h + 1) = w * h + w := by ring
      rw [hmul, List.range_add]
      congr 1
      simp only [List.flatMap_cons, List.flatMap_nil, List.append_nil]
      exact List.map_congr_left (fun x _ => by rw [Nat.mul_comm])

theorem rowMajorIndices_eq (w h : Nat) : rowMajorIndices w h = List.range (w * h) :=
  flatRange w h

theorem map_rowMajorCoords (w h : Nat) :
    (rowMajorCoords w h).map (fun p => p.2 * w + p.1) = List.range (w * h) := by
  rw [rowMajorCoords, List.map_flatMap, ← rowMajorIndices_eq, rowMajorIndices]
  refine flatMap_congr (fun y _ => ?_)
  rw [List.map_map]
  rfl

/-- Full behavior of the diff loop on a list of coordinates with pairwise
distinct indices: the flipped list collects, in visit order, exactly the
coordinates where the running grid differs from the staging grid, and the
final grid holds the staged value at every visited index and the original
value elsewhere. -/
theorem diffLoop_spec (w : Nat) (staging : List CellValue) :
    ∀ (cs : List (Nat × Nat)) (flipped : List CellCoord) (cur : List CellValue),
      (∀ p ∈ cs, p.2 * w + p.1 < staging.length) →
      cur.length = staging.length →
      (cs.map (fun p => p.2 * w + p.1)).Nodup →
      (diffLoop w staging cs flipped cur).1 =
          flipped ++ (cs.filter (fun p =>
            decide (cur.getD (p.2 * w + p.1) CellValue.dead ≠
              staging.getD (p.2 * w + p.1) CellValue.dead))).map
            (fun p => CellCoord.mk p.1 p.2)
        ∧ (diffLoop w staging cs flipped cur).2.length = cur.length
        ∧ ∀ j d, (diffLoop w staging cs flipped cur).2.getD j d =
            if j ∈ cs.map (fun p => p.2 * w + p.1)
            then staging.getD j d
            else cur.getD j d := by
  intro cs
  induction cs with
  | nil =>
      intro flipped cur _ _ _
      simp [diffLoop]
  | cons p rest ih =>
      obtain ⟨x, y⟩ := p
      intro flipped cur hidx hlen hnd
      have hidxp : y * w + x < staging.length := hidx (x, y) (List.mem_cons_self _ _)
      have hidxr : ∀ q ∈ rest, q.2 * w + q.1 < staging.length :=
        fun q hq => hidx q (List.mem_cons_of_mem _ hq)
      rw [List.map_cons, List.nodup_cons] at hnd
      obtain ⟨hnotin, hndr⟩ := hnd
      have hne_rest : ∀ q ∈ rest, y * w + x ≠ q.2 * w + q.1 := by
        intro q hq hcontra
        exact hnotin (hcontra ▸ List.mem_map_of_mem (fun p => p.2 * w + p.1) hq)
      simp only [diffLoop]
      by_cases hdiff : cur.getD (y * w + x) CellValue.dead ≠
          staging.getD (y * w + x) CellValue.dead
      · rw [if_pos hdiff]
        set cur' := cur.set (y * w + x) (staging.getD (y * w + x) CellValue.dead) with hcur'
        have hlen' : cur'.length = staging.length := by
          rw [hcur', List.length_set]; exact hlen
        obtain ⟨ih1, ih2, ih3⟩ := ih (flipped ++ [CellCoord.mk x y]) cur' hidxr hlen' hndr
        have hpred : ∀ q ∈ rest,
            decide (cur'.getD (q.2 * w + q.1) CellValue.dead ≠
              staging.getD (q.2 * w + q.1) CellValue.dead) =
            decide (cur.getD (q.2 * w + q.1) CellValue.dead ≠
              staging.getD (q.2 * w + q.1) CellValue.dead) := by
          intro q hq
          rw [hcur', getD_set_ne (hne_rest q hq)]
        refine ⟨?_, ?_, ?_⟩
        · rw [ih1, List.filter_cons, if_pos (by simpa using hdiff),
            List.map_cons, List.filter_congr hpred]
          simp
        · rw [ih2, hcur', List.length_set]
        · intro j d
          rw [ih3 j d, List.map_cons]
          by_cases hjr : j ∈ rest.map (fun p => p.2 * w + p.1)
          · rw [if_pos hjr, if_pos (List.mem_cons_of_mem _ hjr)]
          · rw [if_neg hjr]
            by_cases hjp : j = y * w + x
            · subst hjp
              rw [if_pos (List.mem_cons_self _ _), hcur',
                getD_set_self (hlen ▸ hidxp)]
              rw [List.getD_eq_getElem _ _ hidxp, List.getD_eq_getElem _ _ hidxp]
            · rw [if_neg (fun hc => (List.mem_cons.mp hc).elim hjp hjr), hcur',
                getD_set_ne (fun hc => hjp hc.symm)]
      · rw [if_neg hdiff]
        obtain ⟨ih1, ih2, ih3⟩ := ih flipped cur hidxr hlen hndr
        have heq : cur.getD (y * w + x) CellValue.dead =
            staging.getD (y * w + x) CellValue.dead := by
          by_contra hc
          exact hdiff hc
        refine ⟨?_, ?_, ?_⟩
        · rw [ih1, List.filter_cons, if_neg (by simpa using hdiff)]
        · exact ih2
        · intro j d
          rw [ih3 j d, List.map_cons]
          by_cases hjr : j ∈ rest.map (fun p => p.2 * w + p.1)
          · rw [if_pos hjr, if_pos (List.mem_cons_of_mem _ hjr)]
          · rw [if_neg hjr]
            by_cases hjp : j = y * w + x
            · subst hjp
              rw [if_pos (List.mem_cons_self _ _)]
              rw [List.getD_eq_getElem _ _ (hlen ▸ hidxp),
                List.getD_eq_getElem _ _ hidxp]
              have h1 := heq
              rw [List.getD_eq_getElem _ _ (hlen ▸ hidxp),
                List.getD_eq_getElem _ _ hidxp] at h1
              exact h1
            · rw [if_neg (fun hc => (List.mem_cons.mp hc).elim hjp hjr)]

/-- The flipped list of the diff step: exactly the row-major-ordered
coordinates at which `current` and `staging` differ. -/
theorem diffStep_fst (w h : Nat) (current staging : List CellValue)
    (hc : current.length = w * h) (hs : staging.length = w * h) :
    (diffStep w h current staging).1 =
      ((rowMajorCoords w h).filter (fun p =>
        decide (current.getD (p.2 * w + p.1) CellValue.dead ≠
          staging.getD (p.2 * w + p.1) CellValue.dead))).map
        (fun p => CellCoord.mk p.1 p.2) := by
  obtain ⟨h1, _, _⟩ := diffLoop_spec w staging (rowMajorCoords w h) [] current
    (by
      intro p hp
      obtain ⟨x, y⟩ := p
      obtain ⟨hx, hy⟩ := mem_rowMajorCoords.mp hp
      exact hs ▸ index_lt hx hy)
    (hc.trans hs.symm)
    (by rw [map_rowMajorCoords]; exact List.nodup_range _)
  rw [diffStep, h1, List.nil_append]

/-- The grid after the diff step equals the staging grid. -/
theorem diffStep_snd (w h : Nat) (current staging : List CellValue)
    (hc : current.length = w * h) (hs : staging.length = w * h) :
    (diffStep w h current staging).2 = staging := by
  obtain ⟨_, h2, h3⟩ := diffLoop_spec w staging (rowMajorCoords w h) [] current
    (by
      intro p hp
      obtain ⟨x, y⟩ := p
      obtain ⟨hx, hy⟩ := mem_rowMajorCoords.mp hp
      exact hs ▸ index_lt hx hy)
    (hc.trans hs.symm)
    (by rw [map_rowMajorCoords]; exact List.nodup_range _)
  rw [diffStep]
  apply List.ext_getElem
  · rw [h2, hc, hs]
  · intro n h1' h2'
    have hn : n < w * h := by rw [h2, hc] at h1'; exact h1'
    have := h3 n CellValue.dead
    rw [if_pos (by rw [map_rowMajorCoords]; exact List.mem_range.mpr hn)] at this
    rw [← List.getD_eq_getElem _ CellValue.dead h1', ← List.getD_eq_getElem _ CellValue.dead h2']
    exact this

/-! ### Loading the initial grid -/

theorem loadCells_none :
    ∀ (idxs : List Nat) (world input : List CellValue),
      input.length < idxs.length → loadCells world idxs input = none := by
  intro idxs
  induction idxs with
  | nil => intro world input hlt; simp at hlt
  | cons i idxs ih =>
      intro world input hlt
      cases input with
      | nil => rfl
      | cons c cs =>
          simp only [loadCells]
          apply ih
          simp only [List.length_cons] at hlt
          omega

theorem take_set_succ {α : Type} {l : List α} {k : Nat} {c : α} (hk : k < l.length) :
    (l.set k c).take (k + 1) = l.take k ++ [c] := by
  rw [List.set_eq_take_append_cons_drop, if_pos hk]
  have hlk : (l.take k).length = k := by
    rw [List.length_take]
    omega
  calc (l.take k ++ c :: l.drop (k + 1)).take (k + 1)
      = (l.take k ++ c :: l.drop (k + 1)).take ((l.take k).length + 1) := by rw [hlk]
    _ = l.take k ++ (c :: l.drop (k + 1)).take 1 := List.take_append 1
    _ = l.take k ++ [c] := by rw [List.take_succ_cons, List.take_zero]

theorem loadCells_range' :
    ∀ (n k : Nat) (world input : List CellValue),
      k + n ≤ world.length → n ≤ input.length →
      loadCells world (List.range' k n) input =
        some (world.take k ++ input.take n ++ world.drop (k + n)) := by
  intro n
  induction n with
  | zero =>
      intro k world input _ _
      simp only [List.range'_zero, loadCells, List.take_zero, List.append_nil,
        Nat.add_zero, List.take_append_drop]
  | succ n ih =>
      intro k world input h1 h2
      cases input with
      | nil => simp at h2
      | cons c cs =>
          rw [List.range'_succ]
          simp only [loadCells]
          rw [ih (k + 1) (world.set k c) cs
            (by rw [List.length_set]; omega)
            (by simp only [List.length_cons] at h2; omega)]
          have hk : k < world.length := by omega
          rw [take_set_succ hk, List.drop_set_of_lt _ _ (by omega),
            List.take_succ_cons]
          have harr : k + 1 + n = k + (n + 1) := by omega
          rw [harr]
          simp

theorem loadGrid_some {w h : Nat} {input : List CellValue}
    (hlen : w * h ≤ input.length) :
    loadGrid w h input = some (input.take (w * h)) := by
  rw [loadGrid, rowMajorIndices_eq, List.range_eq_range',
    loadCells_range' (w * h) 0 _ _ (by simp) hlen]
  simp [List.drop_replicate]

theorem loadGrid_none {w h : Nat} {input : List CellValue}
    (hlen : input.length < w * h) :
    loadGrid w h input = none := by
  rw [loadGrid]
  apply loadCells_none
  rw [rowMajorIndices_eq, List.length_range]
  exact hlen

/-! ### The generation step and the generation loop -/

theorem stepWorld_eq {w h t : Nat} {world : List CellValue}
    (hw : world.length = w * h) :
    stepWorld w h t world = computeStaging world w h t :=
  diffStep_snd w h world _ hw (computeStaging_length world w h t)

theorem stepWorld_length {w h t : Nat} {world : List CellValue}
    (hw : world.length = w * h) :
    (stepWorld w h t world).length = w * h := by
  rw [stepWorld_eq hw]
  exact computeStaging_length world w h t

theorem worldIter_length {w h t : Nat} :
    ∀ (n : Nat) (world : List CellValue), world.length = w * h →
      (worldIter w h t world n).length = w * h := by
  intro n
  induction n with
  | zero => intro world hw; exact hw
  | succ n ih =>
      intro world hw
      exact ih (stepWorld w h t world) (stepWorld_length hw)

/-- The generation loop unrolled: the event trace is the concatenation of the
per-turn event segments, and the final grid is the `n`-fold step of the
initial one. -/
theorem loopTurns_eq (w h t : Nat) :
    ∀ (n : Nat) (world : List CellValue) (s : Nat),
      loopTurns w h t world s n =
        ((List.range n).flatMap
          (fun k => turnEvents (s + k) (stepFlipped w h t (worldIter w h t world k))),
         worldIter w h t world n) := by
  intro n
  induction n with
  | zero => intro world s; simp [loopTurns, worldIter]
  | succ n ih =>
      intro world s
      simp only [loopTurns]
      rw [ih (stepWorld w h t world) (s + 1)]
      rw [Prod.mk.injEq]
      refine ⟨?_, rfl⟩
      rw [List.range_succ_eq_map, List.flatMap_cons, List.flatMap_map]
      congr 1
      refine flatMap_congr (fun k _ => ?_)
      have hsk : s + 1 + k = s + (k + 1) := by omega
      rw [hsk]
      rfl

/-! ### Event-trace lemmas -/

theorem flatMap_single {α β : Type} (l : List α) (g : α → β) :
    l.flatMap (fun a => [g a]) = l.map g := by
  induction l with
  | nil => rfl
  | cons a l ih => simp only [List.flatMap_cons, List.map_cons, List.singleton_append, ih]

theorem filter_turnEvents (turn : Nat) (flipped : List CellCoord) :
    (turnEvents turn flipped).filter isTurnComplete = [Event.turnComplete turn] := by
  rw [turnEvents, List.filter_append]
  by_cases hf : flipped.isEmpty <;>
    simp [hf, isTurnComplete, List.filter_cons]

theorem cf_mem_turnEvents {t turn : Nat} {cells flipped : List CellCoord} :
    Event.cellsFlipped t cells ∈ turnEvents turn flipped ↔
      flipped ≠ [] ∧ t = turn ∧ cells = flipped := by
  rw [turnEvents]
  by_cases hf : flipped.isEmpty
  · rw [if_pos hf, List.nil_append]
    have he : flipped = [] := List.isEmpty_iff.mp hf
    simp [he]
  · rw [if_neg hf, List.singleton_append]
    have he : flipped ≠ [] := fun hc => hf (List.isEmpty_iff.mpr hc)
    simp only [List.mem_cons]
    constructor
    · rintro (heq | heq | heq)
      · injection heq with h1 h2
        exact ⟨he, h1, h2⟩
      · exact Event.noConfusion heq
      · cases heq
    · rintro ⟨_, h1, h2⟩
      exact Or.inl (by rw [h1, h2])

theorem tc_mem_turnEvents {t turn : Nat} {flipped : List CellCoord} :
    Event.turnComplete t ∈ turnEvents turn flipped ↔ t = turn := by
  rw [turnEvents]
  by_cases hf : flipped.isEmpty
  · rw [if_pos hf, List.nil_append]
    simp
  · rw [if_neg hf, List.singleton_append]
    simp

theorem cfFollowed_nil : cfFollowed [] := by
  intro i t cells h
  rw [List.getElem?_nil] at h
  cases h

theorem cfFollowed_append {xs ys : List Event}
    (hx : cfFollowed xs) (hy : cfFollowed ys)
    (hxlast : ∀ i t cells, i + 1 = xs.length →
      xs[i]? ≠ some (Event.cellsFlipped t cells)) :
    cfFollowed (xs ++ ys) := by
  intro i t cells hcf
  rcases Nat.lt_or_ge i xs.length with hi | hi
  · rw [List.getElem?_append_left hi] at hcf
    rcases Nat.lt_or_ge (i + 1) xs.length with hi1 | hi1
    · rw [List.getElem?_append_left hi1]
      exact hx i t cells hcf
    · have hlen : i + 1 = xs.length := by omega
      exact absurd hcf (hxlast i t cells hlen)
  · rw [List.getElem?_append_right hi] at hcf
    have h2 : xs.length ≤ i + 1 := by omega
    rw [List.getElem?_append_right h2]
    have harr : i + 1 - xs.length = (i - xs.length) + 1 := by omega
    rw [harr]
    exact hy (i - xs.length) t cells hcf

theorem turnEvents_cfFollowed (turn : Nat) (flipped : List CellCoord) :
    cfFollowed (turnEvents turn flipped) := by
  intro i t cells hcf
  rw [turnEvents] at hcf ⊢
  by_cases hf : flipped.isEmpty
  · rw [if_pos hf, List.nil_append] at hcf
    match i with
    | 0 => rw [List.getElem?_cons_zero] at hcf; cases hcf
    | n + 1 => rw [List.getElem?_cons_succ, List.getElem?_nil] at hcf; cases hcf
  · rw [if_neg hf, List.singleton_append] at hcf ⊢
    match i with
    | 0 =>
        rw [List.getElem?_cons_zero] at hcf
        injection hcf with hcf
        injection hcf with h1 _
        rw [List.getElem?_cons_succ, List.getElem?_cons_zero, h1]
    | 1 => rw [List.getElem?_cons_succ, List.getElem?_cons_zero] at hcf; cases hcf
    | n + 2 =>
        rw [List.getElem?_cons_succ, List.getElem?_cons_succ, List.getElem?_nil] at hcf
        cases hcf

theorem turnEvents_lastSafe (turn : Nat) (flipped : List CellCoord) :
    ∀ i t cells, i + 1 = (turnEvents turn flipped).length →
      (turnEvents turn flipped)[i]? ≠ some (Event.cellsFlipped t cells) := by
  intro i t cells hlen hcf
  rw [turnEvents] at hlen hcf
  by_cases hf : flipped.isEmpty
  · rw [if_pos hf, List.nil_append] at hlen hcf
    have hi : i = 0 := by simpa using hlen
    subst hi
    rw [List.getElem?_cons_zero] at hcf
    cases hcf
  · rw [if_neg hf, List.singleton_append] at hlen hcf
    have hi : i = 1 := by simpa using hlen
    subst hi
    rw [List.getElem?_cons_succ, List.getElem?_cons_zero] at hcf
    cases hcf

theorem lastSafe_append {xs ys : List Event}
    (hxlast : ∀ i t cells, i + 1 = xs.length →
      xs[i]? ≠ some (Event.cellsFlipped t cells))
    (hylast : ∀ i t cells, i + 1 = ys.length →
      ys[i]? ≠ some (Event.cellsFlipped t cells)) :
    ∀ i t cells, i + 1 = (xs ++ ys).length →
      (xs ++ ys)[i]? ≠ some (Event.cellsFlipped t cells) := by
  intro i t cells hlen hcf
  rw [List.length_append] at hlen
  rcases Nat.lt_or_ge i xs.length with hi | hi
  · rw [List.getElem?_append_left hi] at hcf
    have hys : ys.length = 0 := by omega
    have hxi : i + 1 = xs.length := by omega
    exact hxlast i t cells hxi hcf
  · rw [List.getElem?_append_right hi] at hcf
    have hyi : (i - xs.length) + 1 = ys.length := by omega
    exact hylast (i - xs.length) t cells hyi hcf

theorem segs_cfFollowed (g : Nat → Nat) (f : Nat → List CellCoord) :
    ∀ (ks : List Nat),
      cfFollowed (ks.flatMap (fun k => turnEvents (g k) (f k)))
      ∧ (∀ i t cells,
          i + 1 = (ks.flatMap (fun k => turnEvents (g k) (f k))).length →
          (ks.flatMap (fun k => turnEvents (g k) (f k)))[i]? ≠
            some (Event.cellsFlipped t cells)) := by
  intro ks
  induction ks with
  | nil =>
      refine ⟨cfFollowed_nil, ?_⟩
      intro i t cells hlen
      simp at hlen
  | cons k ks ih =>
      rw [List.flatMap_cons]
      exact ⟨cfFollowed_append (turnEvents_cfFollowed (g k) (f k)) ih.1
          (turnEvents_lastSafe (g k) (f k)),
        lastSafe_append (turnEvents_lastSafe (g k) (f k)) ih.2⟩

/-! ### Bounds and ordering of emitted coordinates -/

theorem coordIndex_mk (w i : Nat) : coordIndex w (CellCoord.mk (i % w) (i / w)) = i := by
  rw [coordIndex]
  dsimp only
  rw [Nat.mul_comm]
  exact Nat.div_add_mod i w

theorem enumFrom_pairwise {α : Type} :
    ∀ (l : List α) (n : Nat),
      (List.enumFrom n l).Pairwise (fun p q => p.1 < q.1) := by
  intro l
  induction l with
  | nil => intro n; exact List.Pairwise.nil
  | cons a l ih =>
      intro n
      rw [List.enumFrom_cons, List.pairwise_cons]
      refine ⟨?_, ih (n + 1)⟩
      intro q hq
      obtain ⟨i, x⟩ := q
      have hm := List.mem_enumFrom hq
      exact Nat.lt_of_lt_of_le (Nat.lt_succ_self n) hm.1

theorem aliveCells_spec (world : List CellValue) (w h : Nat)
    (hw : world.length = w * h) :
    (∀ c ∈ aliveCells world w, c.x < w ∧ c.y < h)
    ∧ (aliveCells world w).Pairwise
        (fun a b => coordIndex w a < coordIndex w b) := by
  constructor
  · intro c hc
    rw [aliveCells, List.mem_filterMap] at hc
    obtain ⟨p, hp, hfp⟩ := hc
    obtain ⟨i, v⟩ := p
    have hm := List.mem_enumFrom (show (i, v) ∈ List.enumFrom 0 world from hp)
    have hi : i < w * h := by
      have := hm.2.1
      omega
    have hw0 : 0 < w := by
      rcases Nat.eq_zero_or_pos w with h0 | h0
      · subst h0; simp at hi
      · exact h0
    by_cases hv : v = CellValue.alive
    · rw [if_pos hv] at hfp
      injection hfp with hfp
      subst hfp
      refine ⟨Nat.mod_lt i hw0, ?_⟩
      rw [Nat.div_lt_iff_lt_mul hw0]
      rw [Nat.mul_comm] at hi
      exact hi
    · rw [if_neg hv] at hfp
      cases hfp
  · rw [aliveCells, List.pairwise_filterMap]
    refine List.Pairwise.imp ?_ (enumFrom_pairwise world 0)
    intro p q hpq c hc c' hc'
    by_cases hv : p.2 = CellValue.alive
    · rw [if_pos hv] at hc
      by_cases hv' : q.2 = CellValue.alive
      · rw [if_pos hv'] at hc'
        have h1 : CellCoord.mk (p.1 % w) (p.1 / w) = c := Option.mem_some_iff.mp hc
        have h2 : CellCoord.mk (q.1 % w) (q.1 / w) = c' := Option.mem_some_iff.mp hc'
        rw [← h1, ← h2, coordIndex_mk, coordIndex_mk]
        exact hpq
      · rw [if_neg hv'] at hc'
        cases hc'
    · rw [if_neg hv] at hc
      cases hc

theorem diffStep_bounds_sorted (w h : Nat) (current staging : List CellValue)
    (hc : current.length = w * h) (hs : staging.length = w * h) :
    (∀ c ∈ (diffStep w h current staging).1, c.x < w ∧ c.y < h)
    ∧ (diffStep w h current staging).1.Pairwise
        (fun a b => coordIndex w a < coordIndex w b) := by
  rw [diffStep_fst w h current staging hc hs]
  constructor
  · intro c hcm
    rw [List.mem_map] at hcm
    obtain ⟨p, hp, hpc⟩ := hcm
    have hpm := (List.mem_filter.mp hp).1
    obtain ⟨a, b⟩ := p
    have hab := mem_rowMajorCoords.mp hpm
    cases hpc
    exact hab
  · rw [List.pairwise_map]
    apply List.Pairwise.sublist (List.filter_sublist _)
    have h1 : List.Pairwise (· < ·)
        ((rowMajorCoords w h).map (fun p => p.2 * w + p.1)) := by
      rw [map_rowMajorCoords]
      exact List.pairwise_lt_range _
    rw [List.pairwise_map] at h1
    exact h1

/-! ### Independence from the number of workers and their order -/

theorem loadGrid_length {w h : Nat} {input : List CellValue}
    {world : List CellValue} (hl : loadGrid w h input = some world) :
    world.length = w * h := by
  rcases Nat.lt_or_ge input.length (w * h) with hlt | hge
  · rw [loadGrid_none hlt] at hl
    cases hl
  · rw [loadGrid_some hge] at hl
    injection hl with hl
    rw [← hl, List.length_take]
    omega

theorem computeStaging_indep (world : List CellValue) (w h : Nat) {k : Nat}
    (hk : 1 ≤ k) :
    computeStaging world w h k = computeStaging world w h 1 := by
  apply List.ext_getElem
  · rw [computeStaging_length, computeStaging_length]
  · intro n h1 h2
    have hn : n < w * h := by rw [computeStaging_length] at h1; exact h1
    have hw0 : 0 < w := by
      rcases Nat.eq_zero_or_pos w with h0 | h0
      · subst h0; simp at hn
      · exact h0
    have hx : n % w < w := Nat.mod_lt n hw0
    have hy : n / w < h := by
      rw [Nat.div_lt_iff_lt_mul hw0]
      rw [Nat.mul_comm] at hn
      exact hn
    have hidx : (n / w) * w + n % w = n := by
      rw [Nat.mul_comm]
      exact Nat.div_add_mod n w
    rw [← List.getD_eq_getElem _ CellValue.dead h1,
      ← List.getD_eq_getElem _ CellValue.dead h2, ← hidx,
      computeStaging_getD world hk hx hy,
      computeStaging_getD world Nat.one_pos hx hy]

theorem computeStagingOrder_indep (world : List CellValue) (w h t : Nat)
    (order : List Nat) (hmem : ∀ i, i ∈ order ↔ i ∈ List.range t) :
    computeStagingOrder world w h t order = computeStaging world w h t := by
  apply List.ext_getElem
  · rw [computeStagingOrder_length, computeStaging_length]
  · intro n h1 h2
    have hn : n < w * h := by rw [computeStagingOrder_length] at h1; exact h1
    have hw0 : 0 < w := by
      rcases Nat.eq_zero_or_pos w with h0 | h0
      · subst h0; simp at hn
      · exact h0
    have hx : n % w < w := Nat.mod_lt n hw0
    have hy : n / w < h := by
      rw [Nat.div_lt_iff_lt_mul hw0]
      rw [Nat.mul_comm] at hn
      exact hn
    have hidx : (n / w) * w + n % w = n := by
      rw [Nat.mul_comm]
      exact Nat.div_add_mod n w
    rw [← List.getD_eq_getElem _ CellValue.dead h1,
      ← List.getD_eq_getElem _ CellValue.dead h2, ← hidx,
      computeStagingOrder_getD world hx hy, computeStaging,
      computeStagingOrder_getD world hx hy]
    have hcond : (∃ i ∈ order, startRow h t i ≤ n / w ∧ n / w < endRow h t i) ↔
        (∃ i ∈ List.range t, startRow h t i ≤ n / w ∧ n / w < endRow h t i) := by
      constructor
      · rintro ⟨i, hi, hr⟩
        exact ⟨i, (hmem i).mp hi, hr⟩
      · rintro ⟨i, hi, hr⟩
        exact ⟨i, (hmem i).mpr hi, hr⟩
    rw [if_congr hcond rfl rfl]

theorem stepFlipped_indep {w h : Nat} {world : List CellValue} {k : Nat}
    (hk : 1 ≤ k) :
    stepFlipped w h k world = stepFlipped w h 1 world := by
  rw [stepFlipped, stepFlipped, computeStaging_indep world w h hk]

theorem stepWorld_indep {w h : Nat} {world : List CellValue} {k : Nat}
    (hk : 1 ≤ k) :
    stepWorld w h k world = stepWorld w h 1 world := by
  rw [stepWorld, stepWorld, computeStaging_indep world w h hk]

theorem loopTurns_indep (w h : Nat) {k : Nat} (hk : 1 ≤ k) :
    ∀ (n : Nat) (world : List CellValue) (s : Nat),
      loopTurns w h k world s n = loopTurns w h 1 world s n := by
  intro n
  induction n with
  | zero => intro world s; rfl
  | succ n ih =>
      intro world s
      simp only [loopTurns]
      rw [stepFlipped_indep hk, stepWorld_indep hk, ih]

theorem loopTurnsSched_eq (w h t : Nat) (sched : Nat → List Nat)
    (hs : ∀ g i, i ∈ sched g ↔ i ∈ List.range t) :
    ∀ (n : Nat) (world : List CellValue) (s : Nat), world.length = w * h →
      loopTurnsSched w h t sched world s n = loopTurns w h t world s n := by
  intro n
  induction n with
  | zero => intro world s _; rfl
  | succ n ih =>
      intro world s hw
      simp only [loopTurnsSched, loopTurns]
      rw [computeStagingOrder_indep world w h t (sched s) (hs s)]
      have h1 : (diffStep w h world (computeStaging world w h t)).1 =
          stepFlipped w h t world := rfl
      have h2 : (diffStep w h world (computeStaging world w h t)).2 =
          stepWorld w h t world := rfl
      rw [h1, h2, ih (stepWorld w h t world) (s + 1) (stepWorld_length hw)]

theorem distributorRunSched_eq (p : Params) (sched : Nat → List Nat)
    (input : List CellValue)
    (hs : ∀ g, (sched g).Perm (List.range p.threads)) :
    distributorRunSched p sched input = distributorRun p input := by
  rw [distributorRunSched, distributorRun]
  cases hl : loadGrid p.image_width p.image_height input with
  | none => rfl
  | some world =>
      dsimp only
      rw [loopTurnsSched_eq p.image_width p.image_height p.threads sched
        (fun g i => (hs g).mem_iff) p.turns world 1 (loadGrid_length hl)]

/-! ### The all-dead grid -/

theorem index_split {w h n : Nat} (hn : n < w * h) :
    n % w < w ∧ n / w < h ∧ (n / w) * w + n % w = n := by
  have hw0 : 0 < w := by
    rcases Nat.eq_zero_or_pos w with h0 | h0
    · subst h0; simp at hn
    · exact h0
  refine ⟨Nat.mod_lt n hw0, ?_, ?_⟩
  · rw [Nat.div_lt_iff_lt_mul hw0]
    rw [Nat.mul_comm] at hn
    exact hn
  · rw [Nat.mul_comm]
    exact Nat.div_add_mod n w

theorem count_alive_neighbors_dead (w h x y : Nat) :
    count_alive_neighbors (List.replicate (w * h) CellValue.dead) w h x y = 0 := by
  simp [count_alive_neighbors, neighborOffsets, getD_replicate]

theorem computeNewCell_dead (w h x y : Nat) :
    computeNewCell (List.replicate (w * h) CellValue.dead) w h x y = CellValue.dead := by
  simp [computeNewCell, getD_replicate, count_alive_neighbors_dead]

theorem computeStaging_dead (w h t : Nat) (ht : 1 ≤ t) :
    computeStaging (List.replicate (w * h) CellValue.dead) w h t =
      List.replicate (w * h) CellValue.dead := by
  apply List.ext_getElem
  · rw [computeStaging_length, List.length_replicate]
  · intro n h1 h2
    have hn : n < w * h := by rw [computeStaging_length] at h1; exact h1
    obtain ⟨hx, hy, hidx⟩ := index_split hn
    rw [← List.getD_eq_getElem _ CellValue.dead h1, List.getElem_replicate, ← hidx,
      computeStaging_getD _ ht hx hy, computeNewCell_dead]

theorem stepWorld_dead (w h t : Nat) (ht : 1 ≤ t) :
    stepWorld w h t (List.replicate (w * h) CellValue.dead) =
      List.replicate (w * h) CellValue.dead := by
  rw [stepWorld_eq (List.length_replicate _ _), computeStaging_dead w h t ht]

theorem stepFlipped_dead (w h t : Nat) (ht : 1 ≤ t) :
    stepFlipped w h t (List.replicate (w * h) CellValue.dead) = [] := by
  rw [stepFlipped, computeStaging_dead w h t ht,
    diffStep_fst w h _ _ (List.length_replicate _ _) (List.length_replicate _ _)]
  have hnil : (rowMajorCoords w h).filter (fun p =>
      decide ((List.replicate (w * h) CellValue.dead).getD (p.2 * w + p.1) CellValue.dead ≠
        (List.replicate (w * h) CellValue.dead).getD (p.2 * w + p.1) CellValue.dead)) = [] := by
    rw [List.filter_eq_nil_iff]
    intro p _
    simp
  rw [hnil, List.map_nil]

/-! ### The explicit trace of a successful run -/

theorem distributorRun_ok {p : Params} {input : List CellValue}
    (hin : p.image_width * p.image_height ≤ input.length) :
    distributorRun p input =
      Except.ok
        (Event.stateChange 0 RunState.executing ::
          (((List.range p.turns).flatMap (fun k =>
              turnEvents (1 + k)
                (stepFlipped p.image_width p.image_height p.threads
                  (worldIter p.image_width p.image_height p.threads
                    (input.take (p.image_width * p.image_height)) k)))) ++
            [Event.finalTurnComplete p.turns
              (aliveCells
                (worldIter p.image_width p.image_height p.threads
                  (input.take (p.image_width * p.image_height)) p.turns)
                p.image_width),
             Event.stateChange p.turns RunState.quitting]),
         worldIter p.image_width p.image_height p.threads
           (input.take (p.image_width * p.image_height)) p.turns) := by
  rw [distributorRun, loadGrid_some hin]
  dsimp only
  rw [loopTurns_eq]

theorem cfFollowed_of_noCf {l : List Event}
    (hno : ∀ t cells, Event.cellsFlipped t cells ∉ l) : cfFollowed l := by
  intro i t cells hcf
  exact absurd (List.getElem?_mem hcf) (hno t cells)

/-! ### Properties of the full run trace -/

theorem fullTrace_filter (T : Nat) (F : Nat → List CellCoord) (t0 : Nat)
    (st : RunState) (ft : Nat) (al : List CellCoord) (t1 : Nat) (st1 : RunState) :
    (Event.stateChange t0 st ::
        (((List.range T).flatMap (fun k => turnEvents (1 + k) (F k))) ++
          [Event.finalTurnComplete ft al,
           Event.stateChange t1 st1])).filter isTurnComplete =
      (List.range T).map (fun k => Event.turnComplete (k + 1)) := by
  have hsc : (Event.stateChange t0 st ::
      (((List.range T).flatMap (fun k => turnEvents (1 + k) (F k))) ++
        [Event.finalTurnComplete ft al,
         Event.stateChange t1 st1])).filter isTurnComplete =
      (((List.range T).flatMap (fun k => turnEvents (1 + k) (F k))) ++
        [Event.finalTurnComplete ft al,
         Event.stateChange t1 st1]).filter isTurnComplete := rfl
  rw [hsc, List.filter_append]
  have hfoot : List.filter isTurnComplete
      [Event.finalTurnComplete ft al, Event.stateChange t1 st1] = [] := rfl
  rw [hfoot, List.append_nil, List.filter_flatMap,
    flatMap_congr (fun k _ => filter_turnEvents (1 + k) (F k)), flatMap_single]
  exact List.map_congr_left (fun k _ => by rw [Nat.add_comm])

theorem fullTrace_mem (T : Nat) (F : Nat → List CellCoord) (t0 : Nat)
    (st : RunState) (ft : Nat) (al : List CellCoord) (t1 : Nat) (st1 : RunState) :
    ∀ t cells, Event.cellsFlipped t cells ∈
        (Event.stateChange t0 st ::
          (((List.range T).flatMap (fun k => turnEvents (1 + k) (F k))) ++
            [Event.finalTurnComplete ft al, Event.stateChange t1 st1])) ↔
      (1 ≤ t ∧ t ≤ T ∧ cells = F (t - 1) ∧ cells ≠ []) := by
  intro t cells
  constructor
  · intro hmem
    rcases List.mem_cons.mp hmem with heq | hmem2
    · exact Event.noConfusion heq
    rcases List.mem_append.mp hmem2 with hL | hrest
    · obtain ⟨k, hk, hte⟩ := List.mem_flatMap.mp hL
      obtain ⟨hne, ht, hcells⟩ := cf_mem_turnEvents.mp hte
      have hk' := List.mem_range.mp hk
      subst ht
      have hk1 : 1 + k - 1 = k := by omega
      rw [hk1]
      exact ⟨by omega, by omega, hcells, hcells ▸ hne⟩
    · rcases List.mem_cons.mp hrest with heq | hrest2
      · exact Event.noConfusion heq
      rcases List.mem_cons.mp hrest2 with heq | hrest3
      · exact Event.noConfusion heq
      · cases hrest3
  · rintro ⟨ht1, ht2, hcells, hne⟩
    refine List.mem_cons_of_mem _ (List.mem_append.mpr (Or.inl ?_))
    refine List.mem_flatMap.mpr ⟨t - 1, List.mem_range.mpr (by omega), ?_⟩
    have ht' : 1 + (t - 1) = t := by omega
    rw [ht']
    exact cf_mem_turnEvents.mpr ⟨hcells ▸ hne, rfl, hcells⟩

theorem fullTrace_cf (T : Nat) (F : Nat → List CellCoord) (t0 : Nat)
    (st : RunState) (ft : Nat) (al : List CellCoord) (t1 : Nat) (st1 : RunState) :
    cfFollowed
      (Event.stateChange t0 st ::
        (((List.range T).flatMap (fun k => turnEvents (1 + k) (F k))) ++
          [Event.finalTurnComplete ft al, Event.stateChange t1 st1])) := by
  have hseg := segs_cfFollowed (fun k => 1 + k) F (List.range T)
  have hrest : cfFollowed [Event.finalTurnComplete ft al, Event.stateChange t1 st1] := by
    apply cfFollowed_of_noCf
    intro t cells hmem
    rcases List.mem_cons.mp hmem with heq | hmem2
    · exact Event.noConfusion heq
    rcases List.mem_cons.mp hmem2 with heq | hmem3
    · exact Event.noConfusion heq
    · cases hmem3
  have hmid : cfFollowed
      ((((List.range T).flatMap (fun k => turnEvents (1 + k) (F k)))) ++
        [Event.finalTurnComplete ft al, Event.stateChange t1 st1]) :=
    cfFollowed_append hseg.1 hrest hseg.2
  rw [← List.singleton_append]
  apply cfFollowed_append _ hmid
  · intro i t cells hlen hcf
    have hi : i = 0 := by simpa using hlen
    subst hi
    rw [List.getElem?_cons_zero] at hcf
    injection hcf with hcf
    exact Event.noConfusion hcf
  · apply cfFollowed_of_noCf
    intro t cells hmem
    rcases List.mem_cons.mp hmem with heq | hmem2
    · exact Event.noConfusion heq
    · cases hmem2

/-! ### Claims -/

/-- C1: for every cell `(x, y)` of the grid, the Computing step writes into
the staging grid the value given by the Life rule applied to the pre-step
grid: an Alive cell with exactly 2 or 3 Alive neighbors stays Alive, a Dead
cell with exactly 3 Alive neighbors becomes Alive, every other combination
yields Dead; the neighbor count (`count_alive_neighbors`) counts only the
in-bounds cells among the 8 surrounding positions. -/
theorem claim_C1 (world : List CellValue) (w h t x y : Nat)
    (ht : 1 ≤ t) (hx : x < w) (hy : y < h) :
    (computeStaging world w h t).getD (y * w + x) CellValue.dead =
      (match world.getD (y * w + x) CellValue.dead with
       | CellValue.alive =>
           if count_alive_neighbors world w h x y = 2 ∨
              count_alive_neighbors world w h x y = 3
           then CellValue.alive else CellValue.dead
       | CellValue.dead =>
           if count_alive_neighbors world w h x y = 3
           then CellValue.alive else CellValue.dead) := by
  rw [computeStaging_getD world ht hx hy]
  rfl

/-- Witness for C1: a 3×3 grid holding a horizontal blinker, two workers;
the cell `(1, 0)` is Dead with exactly 3 Alive neighbors and is staged
Alive. -/
theorem claim_C1_witness :
    (computeStaging
        [CellValue.dead, CellValue.dead, CellValue.dead,
         CellValue.alive, CellValue.alive, CellValue.alive,
         CellValue.dead, CellValue.dead, CellValue.dead] 3 3 2).getD
      (0 * 3 + 1) CellValue.dead = CellValue.alive :=
  (claim_C1
    [CellValue.dead, CellValue.dead, CellValue.dead,
     CellValue.alive, CellValue.alive, CellValue.alive,
     CellValue.dead, CellValue.dead, CellValue.dead] 3 3 2 1 0
    (by decide) (by decide) (by decide)).trans (by decide)

/-- C2: for `height ≥ 1` and `threads ≥ 1` the worker row ranges union to
exactly `[0, height)` with no gaps or overlaps, their sizes differ pairwise
by at most 1, worker 0 owns the lowest rows (its range starts at 0), and
when `threads > height` some worker gets an empty range. -/
theorem claim_C2 (height threads : Nat) (_hh : 1 ≤ height) (ht : 1 ≤ threads) :
    (∀ y, (∃ i, i < threads ∧ startRow height threads i ≤ y ∧
        y < endRow height threads i) ↔ y < height)
      ∧ (∀ i j y, i < threads → j < threads →
          startRow height threads i ≤ y → y < endRow height threads i →
          startRow height threads j ≤ y → y < endRow height threads j → i = j)
      ∧ (∀ i j, i < threads → j < threads →
          endRow height threads i - startRow height threads i ≤
            (endRow height threads j - startRow height threads j) + 1)
      ∧ startRow height threads 0 = 0
      ∧ (height < threads →
          ∃ i, i < threads ∧ endRow height threads i = startRow height threads i) := by
  refine ⟨?_, ?_, ?_, startRow_zero height threads, ?_⟩
  · intro y
    constructor
    · rintro ⟨i, _, _, hlt⟩
      exact Nat.lt_of_lt_of_le hlt (endRow_le height threads i)
    · intro hy
      exact rowCovered ht hy
  · intro i j y hi hj hsi hei hsj hej
    rcases Nat.lt_trichotomy i j with hij | hij | hij
    · exfalso
      have h1 : endRow height threads i ≤ startRow height threads j :=
        (endRow_eq hi) ▸ startRow_mono (Nat.succ_le_of_lt hij)
      omega
    · exact hij
    · exfalso
      have h1 : endRow height threads j ≤ startRow height threads i :=
        (endRow_eq hj) ▸ startRow_mono (Nat.succ_le_of_lt hij)
      omega
  · intro i j hi hj
    have hsi := startRow_succ height threads i
    have hsj := startRow_succ height threads j
    rw [endRow_eq hi, endRow_eq hj]
    split_ifs at hsi hsj <;> omega
  · intro hlt
    have hq : height / threads = 0 := Nat.div_eq_of_lt hlt
    have hr : height % threads = height := Nat.mod_eq_of_lt hlt
    refine ⟨height, hlt, ?_⟩
    rw [endRow_eq hlt, startRow_succ, hq, hr]
    simp

/-- Witness for C2 at `height = 10`, `threads = 3`. -/
theorem claim_C2_witness :
    (∀ y, (∃ i, i < 3 ∧ startRow 10 3 i ≤ y ∧ y < endRow 10 3 i) ↔ y < 10)
      ∧ (∀ i j y, i < 3 → j < 3 →
          startRow 10 3 i ≤ y → y < endRow 10 3 i →
          startRow 10 3 j ≤ y → y < endRow 10 3 j → i = j)
      ∧ (∀ i j, i < 3 → j < 3 →
          endRow 10 3 i - startRow 10 3 i ≤ (endRow 10 3 j - startRow 10 3 j) + 1)
      ∧ startRow 10 3 0 = 0
      ∧ (10 < 3 → ∃ i, i < 3 ∧ endRow 10 3 i = startRow 10 3 i) :=
  claim_C2 10 3 (by decide) (by decide)

/-- C3: after the Diffing step, the flipped list is exactly the set of
coordinates (in row-major order) at which the pre-step grid and the staging
grid differed, the resulting authoritative grid equals the staging grid at
every index, and every index at which the two grids agreed is left
unchanged. -/
theorem claim_C3 (w h : Nat) (current staging : List CellValue)
    (hc : current.length = w * h) (hs : staging.length = w * h) :
    (diffStep w h current staging).1 =
        ((rowMajorCoords w h).filter (fun p =>
          decide (current.getD (p.2 * w + p.1) CellValue.dead ≠
            staging.getD (p.2 * w + p.1) CellValue.dead))).map
          (fun p => CellCoord.mk p.1 p.2)
      ∧ (diffStep w h current staging).2 = staging
      ∧ (∀ x y, x < w → y < h →
          current.getD (y * w + x) CellValue.dead =
            staging.getD (y * w + x) CellValue.dead →
          (diffStep w h current staging).2.getD (y * w + x) CellValue.dead =
            current.getD (y * w + x) CellValue.dead) := by
  refine ⟨diffStep_fst w h current staging hc hs,
    diffStep_snd w h current staging hc hs, ?_⟩
  intro x y _ _ heq
  rw [diffStep_snd w h current staging hc hs, ← heq]

/-- Witness for C3 on a 2×1 grid where only cell `(0, 0)` differs. -/
theorem claim_C3_witness :
    (diffStep 2 1 [CellValue.dead, CellValue.alive]
        [CellValue.alive, CellValue.alive]).1 =
        ((rowMajorCoords 2 1).filter (fun p =>
          decide ([CellValue.dead, CellValue.alive].getD (p.2 * 2 + p.1) CellValue.dead ≠
            [CellValue.alive, CellValue.alive].getD (p.2 * 2 + p.1) CellValue.dead))).map
          (fun p => CellCoord.mk p.1 p.2)
      ∧ (diffStep 2 1 [CellValue.dead, CellValue.alive]
          [CellValue.alive, CellValue.alive]).2 =
          [CellValue.alive, CellValue.alive]
      ∧ (∀ x y, x < 2 → y < 1 →
          [CellValue.dead, CellValue.alive].getD (y * 2 + x) CellValue.dead =
            [CellValue.alive, CellValue.alive].getD (y * 2 + x) CellValue.dead →
          (diffStep 2 1 [CellValue.dead, CellValue.alive]
              [CellValue.alive, CellValue.alive]).2.getD (y * 2 + x) CellValue.dead =
            [CellValue.dead, CellValue.alive].getD (y * 2 + x) CellValue.dead) :=
  claim_C3 2 1 [CellValue.dead, CellValue.alive] [CellValue.alive, CellValue.alive]
    (by decide) (by decide)

/-- C4: for every successful run, the `TurnComplete` events are exactly the
turn numbers `1, ..., turns` in strictly increasing order; a `CellsFlipped`
event with payload `(t, cells)` occurs in the trace exactly when generation
`t`'s flipped set is the non-empty `cells`; and every `CellsFlipped` event
immediately precedes the `TurnComplete` event of the same turn. -/
theorem claim_C4 (p : Params) (input : List CellValue) (tr : List Event)
    (final : List CellValue)
    (hin : p.image_width * p.image_height ≤ input.length)
    (hrun : distributorRun p input = Except.ok (tr, final)) :
    tr.filter isTurnComplete =
        (List.range p.turns).map (fun k => Event.turnComplete (k + 1))
      ∧ (∀ t cells, Event.cellsFlipped t cells ∈ tr ↔
          (1 ≤ t ∧ t ≤ p.turns ∧
            cells = genFlipped p.image_width p.image_height p.threads
              (input.take (p.image_width * p.image_height)) t ∧ cells ≠ []))
      ∧ cfFollowed tr := by
  have hok := distributorRun_ok hin
  rw [hrun] at hok
  simp only [Except.ok.injEq, Prod.mk.injEq] at hok
  obtain ⟨htr, hfin⟩ := hok
  subst htr
  refine ⟨fullTrace_filter _ _ _ _ _ _ _ _, ?_, fullTrace_cf _ _ _ _ _ _ _ _⟩
  intro t cells
  exact fullTrace_mem p.turns
    (fun k => stepFlipped p.image_width p.image_height p.threads
      (worldIter p.image_width p.image_height p.threads
        (input.take (p.image_width * p.image_height)) k))
    0 RunState.executing p.turns _ p.turns RunState.quitting t cells

/-- Witness for C4: a 1×1 run of one turn whose single Alive cell dies,
emitting one `CellsFlipped` followed by one `TurnComplete`. -/
theorem claim_C4_witness :
    ([Event.stateChange 0 RunState.executing,
      Event.cellsFlipped 1 [CellCoord.mk 0 0],
      Event.turnComplete 1,
      Event.finalTurnComplete 1 [],
      Event.stateChange 1 RunState.quitting] : List Event).filter isTurnComplete =
        (List.range 1).map (fun k => Event.turnComplete (k + 1))
      ∧ (∀ t cells, Event.cellsFlipped t cells ∈
          ([Event.stateChange 0 RunState.executing,
            Event.cellsFlipped 1 [CellCoord.mk 0 0],
            Event.turnComplete 1,
            Event.finalTurnComplete 1 [],
            Event.stateChange 1 RunState.quitting] : List Event) ↔
          (1 ≤ t ∧ t ≤ 1 ∧
            cells = genFlipped 1 1 1 ([CellValue.alive].take (1 * 1)) t ∧ cells ≠ []))
      ∧ cfFollowed
          [Event.stateChange 0 RunState.executing,
           Event.cellsFlipped 1 [CellCoord.mk 0 0],
           Event.turnComplete 1,
           Event.finalTurnComplete 1 [],
           Event.stateChange 1 RunState.quitting] :=
  claim_C4 ⟨1, 1, 1, 1⟩ [CellValue.alive]
    [Event.stateChange 0 RunState.executing,
     Event.cellsFlipped 1 [CellCoord.mk 0 0],
     Event.turnComplete 1,
     Event.finalTurnComplete 1 [],
     Event.stateChange 1 RunState.quitting]
    [CellValue.dead] (by decide) rfl

/-- C5: for every initial input and turn count, running with `threads = 1`
and with any `threads = k ≥ 1` produces the same run outcome, and in
particular identical final Alive-cell sets. -/
theorem claim_C5 (w h T k : Nat) (input : List CellValue) (hk : 1 ≤ k) :
    distributorRun ⟨w, h, T, k⟩ input = distributorRun ⟨w, h, T, 1⟩ input
      ∧ (∀ tr final tr1 final1,
          distributorRun ⟨w, h, T, k⟩ input = Except.ok (tr, final) →
          distributorRun ⟨w, h, T, 1⟩ input = Except.ok (tr1, final1) →
          aliveCells final w = aliveCells final1 w) := by
  have hmain : distributorRun ⟨w, h, T, k⟩ input = distributorRun ⟨w, h, T, 1⟩ input := by
    rw [distributorRun, distributorRun]
    dsimp only
    cases hl : loadGrid w h input with
    | none => rfl
    | some world =>
        dsimp only
        rw [loopTurns_indep w h hk T world 1]
  refine ⟨hmain, ?_⟩
  intro tr final tr1 final1 h1 h2
  have h3 := (hmain ▸ h1).symm.trans h2
  simp only [Except.ok.injEq, Prod.mk.injEq] at h3
  rw [h3.2]

/-- Witness for C5: a 3×3 blinker run for 2 turns with 2 workers (which do
not evenly divide the 3 rows) versus 1 worker. -/
theorem claim_C5_witness :
    distributorRun ⟨3, 3, 2, 2⟩
        [CellValue.dead, CellValue.dead, CellValue.dead,
         CellValue.alive, CellValue.alive, CellValue.alive,
         CellValue.dead, CellValue.dead, CellValue.dead] =
      distributorRun ⟨3, 3, 2, 1⟩
        [CellValue.dead, CellValue.dead, CellValue.dead,
         CellValue.alive, CellValue.alive, CellValue.alive,
         CellValue.dead, CellValue.dead, CellValue.dead]
      ∧ (∀ tr final tr1 final1,
          distributorRun ⟨3, 3, 2, 2⟩
            [CellValue.dead, CellValue.dead, CellValue.dead,
             CellValue.alive, CellValue.alive, CellValue.alive,
             CellValue.dead, CellValue.dead, CellValue.dead] = Except.ok (tr, final) →
          distributorRun ⟨3, 3, 2, 1⟩
            [CellValue.dead, CellValue.dead, CellValue.dead,
             CellValue.alive, CellValue.alive, CellValue.alive,
             CellValue.dead, CellValue.dead, CellValue.dead] = Except.ok (tr1, final1) →
          aliveCells final 3 = aliveCells final1 3) :=
  claim_C5 3 3 2 2
    [CellValue.dead, CellValue.dead, CellValue.dead,
     CellValue.alive, CellValue.alive, CellValue.alive,
     CellValue.dead, CellValue.dead, CellValue.dead] (by decide)

/-- C6: with `turns = 0` the generation loop never runs: the trace contains
no `TurnComplete` and no `CellsFlipped` event, and `FinalTurnComplete`
carries turn count 0 and the alive set of the unmodified input grid. -/
theorem claim_C6 (w h t : Nat) (input : List CellValue) (hin : w * h ≤ input.length) :
    distributorRun ⟨w, h, 0, t⟩ input =
      Except.ok
        ([Event.stateChange 0 RunState.executing,
          Event.finalTurnComplete 0 (aliveCells (input.take (w * h)) w),
          Event.stateChange 0 RunState.quitting],
         input.take (w * h)) := by
  rw [distributorRun]
  dsimp only
  rw [loadGrid_some hin]
  rfl

/-- Witness for C6 on a 2×1 grid. -/
theorem claim_C6_witness :
    distributorRun ⟨2, 1, 0, 3⟩ [CellValue.alive, CellValue.dead, CellValue.alive] =
      Except.ok
        ([Event.stateChange 0 RunState.executing,
          Event.finalTurnComplete 0
            (aliveCells ([CellValue.alive, CellValue.dead, CellValue.alive].take (2 * 1)) 2),
          Event.stateChange 0 RunState.quitting],
         [CellValue.alive, CellValue.dead, CellValue.alive].take (2 * 1)) :=
  claim_C6 2 1 3 [CellValue.alive, CellValue.dead, CellValue.alive] (by decide)

/-- C7: the all-Dead grid is a fixed point of the generation step: the
flipped list is empty (so no `CellsFlipped` event is emitted — the turn's
events are exactly `[TurnComplete]`) and the grid is unchanged. -/
theorem claim_C7 (w h t turn : Nat) (ht : 1 ≤ t) :
    stepFlipped w h t (List.replicate (w * h) CellValue.dead) = []
      ∧ stepWorld w h t (List.replicate (w * h) CellValue.dead) =
          List.replicate (w * h) CellValue.dead
      ∧ loopTurns w h t (List.replicate (w * h) CellValue.dead) turn 1 =
          ([Event.turnComplete turn], List.replicate (w * h) CellValue.dead) := by
  refine ⟨stepFlipped_dead w h t ht, stepWorld_dead w h t ht, ?_⟩
  simp only [loopTurns]
  rw [stepFlipped_dead w h t ht, stepWorld_dead w h t ht]
  rfl

/-- Witness for C7 on a 2×2 grid with 3 workers, at turn number 5. -/
theorem claim_C7_witness :
    stepFlipped 2 2 3 (List.replicate (2 * 2) CellValue.dead) = []
      ∧ stepWorld 2 2 3 (List.replicate (2 * 2) CellValue.dead) =
          List.replicate (2 * 2) CellValue.dead
      ∧ loopTurns 2 2 3 (List.replicate (2 * 2) CellValue.dead) 5 1 =
          ([Event.turnComplete 5], List.replicate (2 * 2) CellValue.dead) :=
  claim_C7 2 2 3 5 (by decide)

/-- C8: if the input stream delivers fewer than `width * height` cells, the
run aborts with an error and no event is emitted at all (the error value
carries the events emitted before the failure, which are none). -/
theorem claim_C8 (p : Params) (input : List CellValue)
    (hin : input.length < p.image_width * p.image_height) :
    distributorRun p input = Except.error [] := by
  rw [distributorRun, loadGrid_none hin]

/-- Witness for C8: a 2×2 grid whose input channel closes after one cell. -/
theorem claim_C8_witness :
    distributorRun ⟨2, 2, 1, 1⟩ [CellValue.alive] = Except.error [] :=
  claim_C8 ⟨2, 2, 1, 1⟩ [CellValue.alive] (by decide)

/-- C9: the run is deterministic in the worker schedule: any two
per-generation worker orders that are permutations of `0, ..., threads - 1`
produce identical event traces and final grids. -/
theorem claim_C9 (p : Params) (sched1 sched2 : Nat → List Nat)
    (input : List CellValue)
    (h1 : ∀ g, (sched1 g).Perm (List.range p.threads))
    (h2 : ∀ g, (sched2 g).Perm (List.range p.threads)) :
    distributorRunSched p sched1 input = distributorRunSched p sched2 input := by
  rw [distributorRunSched_eq p sched1 input h1, distributorRunSched_eq p sched2 input h2]

/-- Witness for C9: a 2×2 run with the two workers applied in either order. -/
theorem claim_C9_witness :
    distributorRunSched ⟨2, 2, 1, 2⟩ (fun _ => [1, 0])
        [CellValue.alive, CellValue.dead, CellValue.dead, CellValue.dead] =
      distributorRunSched ⟨2, 2, 1, 2⟩ (fun _ => [0, 1])
        [CellValue.alive, CellValue.dead, CellValue.dead, CellValue.dead] :=
  claim_C9 ⟨2, 2, 1, 2⟩ (fun _ => [1, 0]) (fun _ => [0, 1])
    [CellValue.alive, CellValue.dead, CellValue.dead, CellValue.dead]
    (by
      intro g
      exact (by decide : ([1, 0] : List Nat).Perm (List.range 2)))
    (by
      intro g
      exact (by decide : ([0, 1] : List Nat).Perm (List.range 2)))

/-- C10: every coordinate carried by a `CellsFlipped` or `FinalTurnComplete`
event of a successful run is inside `[0, width) × [0, height)`, and within
each such event's list the coordinates appear in strictly increasing
row-major index order. -/
theorem claim_C10 (p : Params) (input : List CellValue) (tr : List Event)
    (final : List CellValue)
    (hin : p.image_width * p.image_height ≤ input.length)
    (hrun : distributorRun p input = Except.ok (tr, final)) :
    ∀ e ∈ tr,
      (∀ t cells, e = Event.cellsFlipped t cells →
        (∀ c ∈ cells, c.x < p.image_width ∧ c.y < p.image_height) ∧
          cells.Pairwise (fun a b =>
            coordIndex p.image_width a < coordIndex p.image_width b))
      ∧ (∀ t alive, e = Event.finalTurnComplete t alive →
        (∀ c ∈ alive, c.x < p.image_width ∧ c.y < p.image_height) ∧
          alive.Pairwise (fun a b =>
            coordIndex p.image_width a < coordIndex p.image_width b)) := by
  have hok := distributorRun_ok hin
  rw [hrun] at hok
  simp only [Except.ok.injEq, Prod.mk.injEq] at hok
  obtain ⟨htr, hfin⟩ := hok
  subst htr
  have hW0len : (input.take (p.image_width * p.image_height)).length =
      p.image_width * p.image_height := by
    rw [List.length_take]
    omega
  have hWk : ∀ k, (worldIter p.image_width p.image_height p.threads
      (input.take (p.image_width * p.image_height)) k).length =
      p.image_width * p.image_height :=
    fun k => worldIter_length k _ hW0len
  intro e he
  rcases List.mem_cons.mp he with heq | he2
  · subst heq
    exact ⟨fun t cells heq => Event.noConfusion heq,
      fun t alive heq => Event.noConfusion heq⟩
  rcases List.mem_append.mp he2 with hL | hrest
  · obtain ⟨k, _, hte⟩ := List.mem_flatMap.mp hL
    rw [turnEvents] at hte
    rcases List.mem_append.mp hte with hcf | htc
    · by_cases hemp : (stepFlipped p.image_width p.image_height p.threads
          (worldIter p.image_width p.image_height p.threads
            (input.take (p.image_width * p.image_height)) k)).isEmpty
      · rw [if_pos hemp] at hcf
        cases hcf
      · rw [if_neg hemp] at hcf
        have heq := List.mem_singleton.mp hcf
        subst heq
        constructor
        · intro t cells heq
          injection heq with _ h2
          have hbs := diffStep_bounds_sorted p.image_width p.image_height
            (worldIter p.image_width p.image_height p.threads
              (input.take (p.image_width * p.image_height)) k)
            (computeStaging
              (worldIter p.image_width p.image_height p.threads
                (input.take (p.image_width * p.image_height)) k)
              p.image_width p.image_height p.threads)
            (hWk k) (computeStaging_length _ _ _ _)
          rw [← h2]
          exact hbs
        · intro t alive heq
          exact Event.noConfusion heq
    · have heq := List.mem_singleton.mp htc
      subst heq
      exact ⟨fun t cells heq => Event.noConfusion heq,
        fun t alive heq => Event.noConfusion heq⟩
  · rcases List.mem_cons.mp hrest with heq | hrest2
    · subst heq
      constructor
      · intro t cells heq
        exact Event.noConfusion heq
      · intro t alive heq
        injection heq with _ h2
        have hsp := aliveCells_spec
          (worldIter p.image_width p.image_height p.threads
            (input.take (p.image_width * p.image_height)) p.turns)
          p.image_width p.image_height (hWk p.turns)
        rw [← h2]
        exact hsp
    rcases List.mem_cons.mp hrest2 with heq | h3
    · subst heq
      exact ⟨fun t cells heq => Event.noConfusion heq,
        fun t alive heq => Event.noConfusion heq⟩
    · cases h3

/-- Witness for C10 on a 1×1 one-turn run: the `CellsFlipped` event's
coordinate list is in bounds and strictly increasing. -/
theorem claim_C10_witness :
    (∀ c ∈ [CellCoord.mk 0 0], c.x < 1 ∧ c.y < 1)
      ∧ ([CellCoord.mk 0 0] : List CellCoord).Pairwise
          (fun a b => coordIndex 1 a < coordIndex 1 b) :=
  (claim_C10 ⟨1, 1, 1, 1⟩ [CellValue.alive]
    [Event.stateChange 0 RunState.executing,
     Event.cellsFlipped 1 [CellCoord.mk 0 0],
     Event.turnComplete 1,
     Event.finalTurnComplete 1 [],
     Event.stateChange 1 RunState.quitting]
    [CellValue.dead] (by decide) rfl
    (Event.cellsFlipped 1 [CellCoord.mk 0 0]) (by decide)).1
    1 [CellCoord.mk 0 0] rfl

end GoL
